import Mathlib

/-!
Verification of the name-resolution cache of the garage61 MCP repository
(file src/cache.py, class CarsTracksCache), as a shallow embedding.

Strings are modelled as lists of characters (`Str`).  Python string
operations used by the code (lower/upper, split, strip, substring test)
are embedded for the ASCII range, which covers the catalog names the code
works with.  The regular-expression patterns of the scoring and legacy
classifiers are embedded through a small regex interpreter (`Rx`, `reSearch`)
that supports exactly the constructs the patterns use: literal characters,
character classes, alternation, word boundaries, star over a character
class (covering the dot-star and whitespace-star idioms of the source) and
one negative lookahead.  Python exceptions (IndexError, KeyError,
AttributeError, ValueError on empty max) are modelled by the `PyRes.err`
result; normal results are `PyRes.val`.

The standard-library function difflib.get_close_matches is external to
the repository; it is modelled as an abstract parameter `cm` of type `CM`
(word, possibilities, top-n, cutoff in hundredths).  The real function
always returns a subset of its possibilities argument, which is the
`CMOk` hypothesis used where a claim needs it.  Python set iteration
order (used in list(set(...))) is unspecified; it is modelled as
first-occurrence order, and no theorem below depends on that order.
-/

/-- Strings are lists of characters. -/
abbrev Str := List Char

/-- Coercion from Lean string literals to the model's strings. -/
def S (s : String) : Str := s.data

/-- ASCII lower-casing of one character, the character-level behaviour of
Python str.lower for the ASCII range. -/
def pyToLower (c : Char) : Char :=
  if 65 ≤ c.toNat ∧ c.toNat ≤ 90 then Char.ofNat (c.toNat + 32) else c

/-- ASCII upper-casing of one character, the character-level behaviour of
Python str.upper for the ASCII range. -/
def pyToUpper (c : Char) : Char :=
  if 97 ≤ c.toNat ∧ c.toNat ≤ 122 then Char.ofNat (c.toNat - 32) else c

/-- Python str.lower on the model's strings. -/
def pyLowerS (s : Str) : Str := s.map pyToLower

/-- Python str.upper on the model's strings. -/
def pyUpperS (s : Str) : Str := s.map pyToUpper

/-- Whitespace characters recognised by Python str.split() and str.strip()
(ASCII range): space, tab, newline, carriage return, vertical tab, form feed. -/
def isPySpace (c : Char) : Bool :=
  c == ' ' || c == '\t' || c == '\n' || c == '\r' || c.toNat == 11 || c.toNat == 12

/-- Python word character for the re module on lower-cased ASCII text:
letters, digits and the underscore. -/
def isWordChar (c : Char) : Bool := c.isAlphanum || c == '_'

/-- Substring test: strIn n h is Python (n in h) for strings, true when n
occurs contiguously in h (the empty string occurs in every string). -/
def strIn (n : Str) : Str → Bool
  | [] => n.isEmpty
  | c :: t => n.isPrefixOf (c :: t) || strIn n t

/-- Helper for pySplit: accumulates the current word (reversed). -/
def pySplitAux : Str → Str → List Str
  | [], acc => if acc.isEmpty then [] else [acc.reverse]
  | c :: rest, acc =>
    if isPySpace c then
      if acc.isEmpty then pySplitAux rest [] else acc.reverse :: pySplitAux rest []
    else pySplitAux rest (c :: acc)

/-- Python str.split() with no separator: splits on whitespace runs and
drops empty fields. -/
def pySplit (s : Str) : List Str := pySplitAux s []

/-- Python str.strip() with no argument: removes leading and trailing
whitespace. -/
def pyStrip (s : Str) : Str :=
  ((s.dropWhile isPySpace).reverse.dropWhile isPySpace).reverse

/-- Regular expressions, restricted to the constructs appearing in the
patterns of src/cache.py: literal characters, character classes, word
boundaries, alternation, concatenation, star over a character class
(dot-star and whitespace-star) and a single-character negative lookahead. -/
inductive Rx where
  | eps
  | chr (c : Char)
  | cls (p : Char → Bool)
  | wordB
  | notAhead (c : Char)
  | seq (a b : Rx)
  | alt (a b : Rx)
  | starCls (p : Char → Bool)

/-- Character of the subject string at a position, tested for word-ness;
out-of-range positions count as non-word, as in Python re. -/
def wordAt (s : Str) (i : Nat) : Bool :=
  match s.get? i with
  | some c => isWordChar c
  | none => false

/-- Python re word boundary at position i of s. -/
def atBoundary (s : Str) (i : Nat) : Bool :=
  (if i = 0 then false else wordAt s (i - 1)) != wordAt s i

/-- All end positions of a match of the regex starting at position i of s.
For the boolean search semantics used by the code only emptiness matters,
so the list may contain duplicates. -/
def runRx (s : Str) : Rx → Nat → List Nat
  | .eps, i => [i]
  | .chr c, i =>
    match s.get? i with
    | some c2 => if c2 == c then [i + 1] else []
    | none => []
  | .cls p, i =>
    match s.get? i with
    | some c2 => if p c2 then [i + 1] else []
    | none => []
  | .wordB, i => if atBoundary s i then [i] else []
  | .notAhead c, i =>
    match s.get? i with
    | some c2 => if c2 == c then [] else [i]
    | none => [i]
  | .seq a b, i => (runRx s a i).flatMap (runRx s b)
  | .alt a b, i => runRx s a i ++ runRx s b i
  | .starCls p, i => (List.range (((s.drop i).takeWhile p).length + 1)).map (i + ·)

/-- Python re.search as a boolean: the pattern matches starting at some
position of the subject string. -/
def reSearch (r : Rx) (s : Str) : Bool :=
  (List.range (s.length + 1)).any (fun i => !(runRx s r i).isEmpty)

/-- Concatenation of a list of regexes. -/
def rseq (l : List Rx) : Rx := l.foldr Rx.seq Rx.eps

/-- Regex matching one literal string. -/
def rstr (t : String) : Rx := rseq (t.data.map Rx.chr)

/-- Alternation of a list of regexes (empty list matches nothing, but it is
never used on an empty list below). -/
def ralts : List Rx → Rx
  | [] => Rx.eps
  | [r] => r
  | r :: rest => Rx.alt r (ralts rest)

/-- Dot-star: any run of characters other than newline, as Python (.*)
without DOTALL. -/
def dotStar : Rx := Rx.starCls (fun c => c != '\n')

/-- Whitespace-star, Python \s* for the ASCII range. -/
def spaceStar : Rx := Rx.starCls isPySpace

/-- Python \s as a class. -/
def spaceCls : Rx := Rx.cls isPySpace

/-- Bracket a regex with word boundaries on both sides. -/
def bounded (r : Rx) : Rx := rseq [Rx.wordB, r, Rx.wordB]

/-- Alternation of literal strings, bracketed by word boundaries. -/
def boundedAlts (l : List String) : Rx := bounded (ralts (l.map rstr))

/-- Character-range class, as a bracket expression like [4-6]. -/
def rng (lo hi : Char) (c : Char) : Bool := lo.toNat ≤ c.toNat && c.toNat ≤ hi.toNat

/-- Legacy patterns of CarsTracksCache._is_legacy_car (src/cache.py lines
81-104), one Rx per Python pattern string, in source order.  The original
pattern is quoted in a comment next to each entry. -/
def legacyPatterns : List Rx :=
  [ bounded (rstr ("991")),                                  -- \b(991)\b
    boundedAlts ["2008", "2009", "2010", "2012", "2013", "2014", "2015", "2016"],
    boundedAlts ["cot", "car of tomorrow"],
    boundedAlts ["legacy", "retired", "discontinued", "old"],
    rseq [Rx.wordB, rstr ("mk"), dotStar, Rx.chr '1', Rx.wordB],   -- \bmk.*1\b
    rseq [Rx.wordB, rstr ("gen"), dotStar, Rx.chr '1', Rx.wordB],  -- \bgen.*1\b
    rstr ("c6.r"),                                           -- c6\.r
    rseq [rstr ("c7"), spaceCls],                            -- c7\s
    rseq [rstr ("impala"), dotStar, rstr ("cot")],           -- impala.*cot
    rseq [rstr ("fusion"), dotStar, rstr ("2016")],          -- fusion.*2016
    ralts [rstr ("2010"), rstr ("2012"), rstr ("2013"), rstr ("2014"),
           rstr ("2015"), rstr ("2016")],                    -- 2010|2012|...|2016
    rseq [rstr ("legends"), dotStar, rstr ("1987")],         -- legends.*1987
    rseq [rstr ("nationwide"), dotStar, rstr ("2012")],      -- nationwide.*2012
    rseq [rstr ("gander"), dotStar, rstr ("2015")],          -- gander.*2015
    rseq [rstr ("xfinity"), dotStar, rstr ("201"), Rx.cls (rng '4' '6')],
    Rx.alt (rseq [rstr ("truck"), dotStar, rstr ("2008")])
           (rseq [rstr ("truck"), dotStar, rstr ("2018")]),  -- truck.*2008|truck.*2018
    rseq [rstr ("mazda"), dotStar, rstr ("2010")],           -- mazda.*2010
    rseq [rstr ("formula"), spaceStar, rstr ("renault")],    -- formula\s*renault
    Rx.alt (rstr ("ir-05"))
           (rseq [rstr ("ir18"), dotStar, Rx.notAhead '2']), -- ir-05|ir18.*(?!2)
    Rx.alt (rseq [rstr ("falcon"), dotStar, rstr ("2009")])
           (rseq [rstr ("falcon"), dotStar, rstr ("2014")]), -- falcon.*2009|falcon.*2014
    rseq [rstr ("commodore"), dotStar, rstr ("2014")],       -- commodore.*2014
    rseq [rstr ("f82"), dotStar, rstr ("2018")] ]            -- f82.*2018

/-- CarsTracksCache._is_legacy_car: the lower-cased name matches one of the
legacy patterns. -/
def isLegacyCar (carName : Str) : Bool :=
  legacyPatterns.any (fun p => reSearch p (pyLowerS carName))

/-- Year bucket patterns of _get_car_generation_score (src/cache.py lines
36-46), with their scores, in source order. -/
def yearPatterns : List (Rx × Int) :=
  [ (boundedAlts ["2024", "2025"], 90),
    (boundedAlts ["2022", "2023"], 80),
    (boundedAlts ["2020", "2021"], 70),
    (boundedAlts ["2018", "2019"], 50),
    (boundedAlts ["2016", "2017"], 30),
    (boundedAlts ["2014", "2015"], 20),
    (boundedAlts ["2012", "2013"], 15),
    (boundedAlts ["2010", "2011"], 10),
    (boundedAlts ["2008", "2009"], 5) ]

/-- Modern-indicator patterns of _get_car_generation_score (src/cache.py
lines 53-67), with their scores, in source order. -/
def modernPatterns : List (Rx × Int) :=
  [ (rseq [Rx.wordB, rstr ("evo"), spaceStar,
           ralts [rstr ("2024"), rstr ("2023"), rstr ("2022"),
                  rstr ("2021"), rstr ("2020")], Rx.wordB], 85),
    (rseq [Rx.wordB, rstr ("evo"), spaceStar, rstr ("ii"), Rx.wordB], 80),
    (bounded (rstr ("evo")), 70),
    (rseq [Rx.wordB, rstr ("next"), spaceStar, rstr ("gen"), Rx.wordB], 90),
    (rseq [Rx.wordB, rstr ("gen"), spaceStar, Rx.chr '3', Rx.wordB], 85),
    (bounded (rstr ("hybrid")), 80),
    (bounded (rstr ("gtp")), 85),
    (rseq [Rx.wordB, rstr ("gt3"), dotStar, Rx.chr 'r', Rx.wordB], 75),
    (bounded (rstr ("gt3")), 65),
    (bounded (rstr ("gt4")), 60),
    (bounded (rstr ("gte")), 70),
    (bounded (rstr ("tcr")), 65),
    (rseq [Rx.wordB, rstr ("cup"), dotStar, Rx.chr '(', rstr ("99"),
           Rx.cls (rng '2' '9'), Rx.chr ')'], 80) ]          -- \bcup.*\(99[2-9]\)

/-- Year-bucket scan followed by the modern-indicator scan of
_get_car_generation_score: first matching year bucket wins, otherwise the
maximum matching modern indicator with baseline 40. -/
def yearAndModernScore (nameLower : Str) : Int :=
  match yearPatterns.find? (fun p => reSearch p.1 nameLower) with
  | some p => p.2
  | none =>
    modernPatterns.foldl
      (fun base p => if reSearch p.1 nameLower then max base p.2 else base) 40

/-- CarsTracksCache._get_car_generation_score: legacy names score 0, then the
Porsche 992/991 literals, then the year buckets, then the modern indicators
with baseline 40. -/
def getCarGenerationScore (carName : Str) : Int :=
  let nameLower := pyLowerS carName
  if isLegacyCar carName then 0
  else if strIn (S ("porsche")) nameLower then
    if strIn (S ("992")) nameLower then 100
    else if strIn (S ("991")) nameLower then 10
    else yearAndModernScore nameLower
  else yearAndModernScore nameLower

/-- Preferred track-variant patterns of _get_track_variant_score
(src/cache.py lines 126-134), in source order. -/
def preferredPatterns : List (Rx × Int) :=
  [ (rseq [Rx.wordB, rstr ("grand"), spaceStar, rstr ("prix"), Rx.wordB], 100),
    (rseq [Rx.wordB, rstr ("full"), spaceStar, rstr ("course"), Rx.wordB], 95),
    (bounded (rstr ("international")), 90),
    (bounded (rstr ("endurance")), 85),
    (bounded (rstr ("oval")), 80),
    (bounded (rstr ("national")), 75),
    (bounded (rstr ("club")), 70) ]

/-- Less-preferred track-variant patterns of _get_track_variant_score
(src/cache.py lines 137-147), in source order. -/
def lessPreferredPatterns : List (Rx × Int) :=
  [ (bounded (rstr ("moto")), 40),
    (bounded (rstr ("bike")), 35),
    (bounded (rstr ("rallycross")), 30),
    (bounded (rstr ("legends")), 25),
    (bounded (rstr ("school")), 20),
    (bounded (rstr ("reverse")), 15),
    (bounded (rstr ("short")), 45),
    (bounded (rstr ("alt")), 40),
    (Rx.alt (bounded (rstr ("without")))
            (rseq [rstr ("w/out"), Rx.wordB]), 35) ]         -- \bwithout\b|w/out\b

/-- CarsTracksCache._get_track_variant_score: empty variants score 50, the
preferred patterns are scanned first, then the less-preferred ones, default
50. -/
def getTrackVariantScore (variant : Str) : Int :=
  if variant.isEmpty then 50
  else
    let v := pyLowerS variant
    match preferredPatterns.find? (fun p => reSearch p.1 v) with
    | some p => p.2
    | none =>
      match lessPreferredPatterns.find? (fun p => reSearch p.1 v) with
      | some p => p.2
      | none => 50

/-- Car entity: a car record with its id and display name (src/cache.py
stores dicts with id and name fields). -/
structure Car where
  id : Int
  name : Str
deriving DecidableEq, BEq

/-- Track entity: a track record with its id, base name and (possibly
empty) variant. -/
structure Track where
  id : Int
  name : Str
  variant : Str
deriving DecidableEq, BEq

/-- Result of a Python call: a value, or a raised exception. -/
inductive PyRes (α : Type) where
  | val (a : α)
  | err
deriving DecidableEq

/-- Python dict insertion into an association list: overwriting an existing
key keeps its position, a new key is appended, as CPython dicts do. -/
def dictInsert {β : Type} (d : List (Str × β)) (k : Str) (v : β) : List (Str × β) :=
  match d with
  | [] => [(k, v)]
  | (k2, v2) :: rest =>
    if k2 == k then (k2, v) :: rest else (k2, v2) :: dictInsert rest k v

/-- Python dict lookup in an association list (keys are unique by
construction, so first match equals the dict entry). -/
def dictLookup {β : Type} : List (Str × β) → Str → Option β
  | [], _ => none
  | (k2, v) :: rest, k => if k2 == k then some v else dictLookup rest k

/-- Sequence of Option values; none as soon as one element is none.  Models
a Python comprehension of dict lookups, which raises on a missing key. -/
def optAll {α : Type} : List (Option α) → Option (List α)
  | [] => some []
  | none :: _ => none
  | some a :: os =>
    match optAll os with
    | some bs => some (a :: bs)
    | none => none

/-- Append an element to a list unless already present, the step of the
duplicate-avoiding accumulations in the source (if x not in acc: append). -/
def pyDedupAppend {beta : Type} [BEq beta] (acc : List beta) (y : beta) : List beta :=
  if acc.contains y then acc else acc ++ [y]

/-- Python list(set(l)) modelled as first-occurrence deduplication.  CPython
set iteration order is unspecified; no theorem depends on this order. -/
def pySetList (l : List Str) : List Str :=
  l.foldl pyDedupAppend []

/-- Insertion step of a stable descending sort by an integer key: the new
element goes before the first element with a strictly smaller key, so equal
keys keep their original relative order. -/
def insDesc {α : Type} (key : α → Int) (acc : List α) (x : α) : List α :=
  match acc with
  | [] => [x]
  | y :: ys => if key y < key x then x :: y :: ys else y :: insDesc key ys x

/-- Stable descending sort by an integer key, the behaviour of Python
sorted(l, key=key, reverse=True) (Timsort is stable, and a stable sort is
uniquely determined by the key order). -/
def pySortDesc {α : Type} (key : α → Int) (l : List α) : List α :=
  l.foldl (insDesc key) []

/-- First element with the maximal key, the behaviour of Python
max(l, key=f) (which keeps the first of several maximal elements);
none models the ValueError on an empty sequence. -/
def pyMaxBy {α : Type} (f : α → Int) : List α → Option α
  | [] => none
  | x :: xs => some (xs.foldl (fun b y => if f b < f y then y else b) x)

/-- CarsTracksCache._sort_cars_by_relevance: sort by generation score
descending, dropping legacy cars first unless include_legacy is set. -/
def sortCarsByRelevance (cars : List Car) (includeLegacy : Bool) : List Car :=
  if includeLegacy then
    pySortDesc (fun car => getCarGenerationScore car.name) cars
  else
    pySortDesc (fun car => getCarGenerationScore car.name)
      (cars.filter (fun car => !isLegacyCar car.name))

/-- Insertion into the base-name grouping dict: append to an existing group
or append a new singleton group (CPython dict insertion order). -/
def groupInsert (g : List (Str × List Track)) (k : Str) (t : Track) :
    List (Str × List Track) :=
  match g with
  | [] => [(k, [t])]
  | (k2, ts) :: rest =>
    if k2 == k then (k2, ts ++ [t]) :: rest else (k2, ts) :: groupInsert rest k t

/-- CarsTracksCache._group_tracks_by_base_name: group by the raw (not
lower-cased) base name, in first-occurrence order. -/
def groupTracksByBaseName (tracks : List Track) : List (Str × List Track) :=
  tracks.foldl (fun g t => groupInsert g t.name t) []

/-- CarsTracksCache._get_best_track_variant: none on an empty list (the
Python None), the single element of a singleton, else the head of the
stable descending sort by variant score.  The prefer_racing flag is
accepted and ignored, as in the source. -/
def getBestTrackVariant (variants : List Track) (preferRacing : Bool) : Option Track :=
  if variants.isEmpty then none
  else if variants.length == 1 then variants.head?
  else (pySortDesc (fun t => getTrackVariantScore t.variant) variants).head?

/-- CarsTracksCache._format_track_name_with_variant. -/
def formatTrackNameWithVariant (t : Track) : Str :=
  if t.variant.isEmpty then t.name else t.name ++ S (" - ") ++ t.variant

/-- Shapes accepted by set_cars / set_tracks: the API envelope with an
items list, a bare list of name strings, a bare list of entity objects, or
anything else (logged and treated as empty). -/
inductive CatalogData (E : Type) where
  | envelope (items : List E)
  | names (xs : List Str)
  | objects (es : List E)
  | malformed

/-- Car list extraction of set_cars (src/cache.py lines 193-209): the
envelope's items verbatim; a non-empty list of strings auto-numbered by
position; a non-empty list of objects verbatim; everything else (including
the empty bare list, which is falsy in Python) becomes the empty list. -/
def carsFromData : CatalogData Car → List Car
  | .envelope items => items
  | .names xs => if xs.isEmpty then [] else xs.enum.map (fun p => ⟨Int.ofNat p.1, p.2⟩)
  | .objects es => if es.isEmpty then [] else es
  | .malformed => []

/-- Track list extraction of set_tracks (src/cache.py lines 220-236); a
string entry carries no variant key, so its variant reads as empty. -/
def tracksFromData : CatalogData Track → List Track
  | .envelope items => items
  | .names xs => if xs.isEmpty then [] else xs.enum.map (fun p => ⟨Int.ofNat p.1, p.2, []⟩)
  | .objects es => if es.isEmpty then [] else es
  | .malformed => []

/-- Key derived from a track's lower-cased base name. -/
def baseKey (t : Track) : Str := pyLowerS t.name

/-- Space-separated full-name key of set_tracks (line 250). -/
def spaceKey (t : Track) : Str :=
  pyStrip (pyLowerS t.name ++ [' '] ++ pyLowerS t.variant)

/-- Dash-separated full-name key of set_tracks (line 253). -/
def dashKey (t : Track) : Str :=
  pyStrip (pyLowerS t.name ++ S (" - ") ++ pyLowerS t.variant)

/-- One iteration of the index-building loop of set_tracks (src/cache.py
lines 240-254): conditionally register the bare base name, then register
both variant-qualified forms when a variant exists. -/
def trackIndexStep (d : List (Str × Track)) (t : Track) : List (Str × Track) :=
  let d1 :=
    if !(baseKey t).isEmpty && (dictLookup d (baseKey t)).isNone
    then dictInsert d (baseKey t) t else d
  if !t.variant.isEmpty
  then dictInsert (dictInsert d1 (spaceKey t) t) (dashKey t) t
  else d1

/-- Track-name index built by set_tracks. -/
def buildTracksByName (ts : List Track) : List (Str × Track) :=
  ts.foldl trackIndexStep []

/-- Car-name index built by set_cars (line 212): a dict comprehension over
the stored cars keyed by lower-cased name, later cars overwriting earlier
ones with the same key. -/
def buildCarsByName (cs : List Car) : List (Str × Car) :=
  cs.foldl (fun d c => dictInsert d (pyLowerS c.name) c) []

/-- State of a CarsTracksCache instance. -/
structure CacheState where
  cars : List Car
  carsByName : List (Str × Car)
  tracks : List Track
  tracksByName : List (Str × Track)

/-- The freshly constructed cache: everything empty. -/
def emptyCache : CacheState := ⟨[], [], [], []⟩

/-- CarsTracksCache.set_cars: replace the car list and rebuild the car-name
index; the track side is untouched. -/
def setCars (d : CatalogData Car) (st : CacheState) : CacheState :=
  let cs := carsFromData d
  { st with cars := cs, carsByName := buildCarsByName cs }

/-- CarsTracksCache.set_tracks: replace the track list and rebuild the
track-name index; the car side is untouched. -/
def setTracks (d : CatalogData Track) (st : CacheState) : CacheState :=
  let ts := tracksFromData d
  { st with tracks := ts, tracksByName := buildTracksByName ts }

/-- Model of difflib.get_close_matches, which is outside the repository:
an abstract function of the query, the candidate list, the maximal number
of results and the cutoff in hundredths. -/
def CM : Type := Str → List Str → Nat → Nat → List Str

/-- Soundness of a close-match function: the real get_close_matches only
returns elements of its possibilities argument. -/
def CMOk (cm : CM) : Prop :=
  ∀ q ps n c x, x ∈ cm q ps n c → x ∈ ps

/-- Legacy-intent keywords of find_car and get_car_suggestions
(src/cache.py lines 273 and 350). -/
def legacyKeywords : List Str :=
  [S ("legacy"), S ("old"), S ("classic"), S ("vintage"), S ("991"),
   S ("gen 1"), S ("generation 1")]

/-- Fuzzy candidate keys of find_car (src/cache.py lines 317-328): the
close matches of the whole query (top 10, cutoff 0.3) or, when that is
empty and the query has several words, the de-duplicated union of the
close matches of each word (top 5 per word, cutoff 0.3). -/
def fuzzyCandidates (cm : CM) (carNames : List Str) (q : Str) (inputWords : List Str) :
    List Str :=
  let matches0 := cm q carNames 10 30
  if matches0.isEmpty && inputWords.length > 1 then
    pySetList (matches0 ++ inputWords.flatMap (fun w => cm w carNames 5 30))
  else matches0

/-- CarsTracksCache.find_car (src/cache.py lines 268-343).  Stages, in
source order: legacy-keyword override of include_legacy, exact index hit,
partial/substring matching with relevance ranking, then fuzzy matching.
The err result models the IndexError raised by sorted_matches[0] when the
relevance ranking has filtered out every partial match, and the KeyError
raised when a fuzzy match is not an index key. -/
def findCar (cm : CM) (st : CacheState) (carName : Str) (includeLegacy : Bool) :
    PyRes (Option (Int × Str)) :=
  let q := pyLowerS carName
  let incLegacy := includeLegacy || legacyKeywords.any (fun k => strIn k q)
  match dictLookup st.carsByName q with
  | some car => .val (some (car.id, car.name))
  | none =>
    let inputWords := pySplit q
    let partialMatches := (st.carsByName.filter (fun p =>
        strIn q p.1 || strIn p.1 q || inputWords.all (fun w => strIn w p.1))).map (·.2)
    if partialMatches.isEmpty then
      let carNames := st.carsByName.map (·.1)
      let fmatches := fuzzyCandidates cm carNames q inputWords
      if fmatches.isEmpty then .val none
      else
        match optAll (fmatches.map (fun m => dictLookup st.carsByName m)) with
        | none => .err
        | some matchCars =>
          match sortCarsByRelevance matchCars incLegacy with
          | best :: _ => .val (some (best.id, best.name))
          | [] => .val none
    else
      let sortedMatches := sortCarsByRelevance partialMatches incLegacy
      if sortedMatches.length == 1 then
        match sortedMatches with
        | m :: _ => .val (some (m.id, m.name))
        | [] => .err
      else
        match sortedMatches.find? (fun m =>
            inputWords.all (fun w => (pySplit (pyLowerS m.name)).contains w)) with
        | some m => .val (some (m.id, m.name))
        | none =>
          match sortedMatches with
          | best :: _ => .val (some (best.id, best.name))
          | [] => .err

/-- CarsTracksCache.get_car_suggestions (src/cache.py lines 345-373).  The
err result models the KeyError of the index lookup on a fuzzy match that is
not a key. -/
def getCarSuggestions (cm : CM) (st : CacheState) (carName : Str) (limit : Nat)
    (includeLegacy : Bool) : PyRes (List Str) :=
  let q := pyLowerS carName
  let incLegacy := includeLegacy || legacyKeywords.any (fun k => strIn k q)
  let suggestionCars := (st.carsByName.filter (fun p =>
      strIn q p.1 || (pySplit q).any (fun w => strIn w p.1))).map (·.2)
  let carNames := st.carsByName.map (·.1)
  match optAll ((cm q carNames (limit * 2) 40).map (fun m => dictLookup st.carsByName m)) with
  | none => .err
  | some fuzzyCars =>
    let allCars := fuzzyCars.foldl
      (fun acc car => pyDedupAppend acc car) suggestionCars
    .val (((sortCarsByRelevance allCars incLegacy).take limit).map (·.name))

/-- Base-name match score of the inner match_score function of find_track
(src/cache.py lines 418-427). -/
def trackMatchScore (q : Str) (t : Track) : Int :=
  let base := pyLowerS t.name
  if q == base then 100
  else if strIn q base then 80
  else if strIn base q then 60
  else 20

/-- Grouped selection stage of find_track (src/cache.py lines 400-431):
group the textually overlapping tracks by base name; with a single group
return the best variant of that group, otherwise pick the best variant of
each group and return the one whose base name best matches the query
(first maximum).  The err results model the exceptions a None best
variant or an empty max would raise. -/
def bestGroupedResult (q : Str) (pr : Bool) (matchingTracks : List Track) :
    PyRes (Option (Int × Str)) :=
  let grouped := groupTracksByBaseName matchingTracks
  if grouped.length == 1 then
    match grouped.head? with
    | some p =>
      match getBestTrackVariant p.2 pr with
      | some best => .val (some (best.id, formatTrackNameWithVariant best))
      | none => .err
    | none => .err
  else
    match optAll (grouped.map (fun g => getBestTrackVariant g.2 pr)) with
    | none => .err
    | some allBest =>
      match pyMaxBy (trackMatchScore q) allBest with
      | some best => .val (some (best.id, formatTrackNameWithVariant best))
      | none => .err

/-- CarsTracksCache.find_track (src/cache.py lines 375-452).  Stages, in
source order: exact index hit, base-name/variant textual overlap grouped by
base name (one group: best variant of the group; several groups: best
variant per group, then the group whose base name best matches), then a
fuzzy match on the distinct base names.  The err results model the
exceptions that an empty best-variant (None subscripted) or an empty max
would raise. -/
def findTrack (cm : CM) (st : CacheState) (trackName : Str) (preferRacing : Bool) :
    PyRes (Option (Int × Str)) :=
  let q := pyLowerS trackName
  match dictLookup st.tracksByName q with
  | some t => .val (some (t.id, formatTrackNameWithVariant t))
  | none =>
    let matchingTracks := st.tracks.filter (fun t =>
      let base := pyLowerS t.name
      let fullName := pyLowerS (pyStrip (base ++ [' '] ++ pyLowerS t.variant))
      strIn q base || strIn base q || strIn q fullName ||
        (pySplit q).any (fun w => strIn w base))
    if matchingTracks.isEmpty then
      let baseNames := pySetList (st.tracks.map (·.name))
      let fmatches := cm q (baseNames.map pyLowerS) 3 40
      match fmatches with
      | [] => .val none
      | m :: _ =>
        match baseNames.find? (fun n => pyLowerS n == m) with
        | none => .val none
        | some matchedBase =>
          match getBestTrackVariant
              (st.tracks.filter (fun t => t.name == matchedBase)) preferRacing with
          | some best => .val (some (best.id, formatTrackNameWithVariant best))
          | none => .err
    else bestGroupedResult q preferRacing matchingTracks

/-- CarsTracksCache.get_track_suggestions (src/cache.py lines 462-483).
The err result models the KeyError of the index lookup on a fuzzy match
that is not a key. -/
def getTrackSuggestions (cm : CM) (st : CacheState) (trackName : Str) (limit : Nat) :
    PyRes (List Str) :=
  let q := pyLowerS trackName
  let fromPartial := st.tracksByName.foldl
    (fun acc p =>
      if strIn q p.1 || (pySplit q).any (fun w => strIn w p.1) then
        pyDedupAppend acc (formatTrackNameWithVariant p.2)
      else acc) []
  let trackNames := st.tracksByName.map (·.1)
  match optAll ((cm q trackNames limit 40).map (fun m => dictLookup st.tracksByName m)) with
  | none => .err
  | some fuzzyTracks =>
    let allSugg := fuzzyTracks.foldl
      (fun acc t => pyDedupAppend acc (formatTrackNameWithVariant t)) fromPartial
    .val (allSugg.take limit)

/-! Helper lemmas about the string, dictionary and sorting primitives. -/

theorem charToNat_ofNat_valid (n : Nat) (h : n.isValidChar) : (Char.ofNat n).toNat = n := by
  simp only [Char.ofNat, h, dif_pos, Char.ofNatAux, Char.toNat]
  simp [UInt32.toNat]

theorem pyToLower_pyToUpper (c : Char) : pyToLower (pyToUpper c) = pyToLower c := by
  unfold pyToUpper
  by_cases h : 97 ≤ c.toNat ∧ c.toNat ≤ 122
  · rw [if_pos h]
    have hv : (c.toNat - 32).isValidChar := Or.inl (by omega)
    unfold pyToLower
    rw [charToNat_ofNat_valid (c.toNat - 32) hv]
    rw [if_pos (show 65 ≤ c.toNat - 32 ∧ c.toNat - 32 ≤ 90 by omega),
        if_neg (show ¬(65 ≤ c.toNat ∧ c.toNat ≤ 90) by omega)]
    rw [show c.toNat - 32 + 32 = c.toNat by omega, Char.ofNat_toNat]
  · rw [if_neg h]

theorem pyLowerS_pyUpperS (s : Str) : pyLowerS (pyUpperS s) = pyLowerS s := by
  unfold pyLowerS pyUpperS
  rw [List.map_map]
  exact List.map_congr_left (fun a _ => pyToLower_pyToUpper a)

theorem strIn_nil (h : Str) : strIn [] h = true := by
  cases h <;> simp [strIn, List.isPrefixOf]

theorem dictLookup_dictInsert {β : Type} (d : List (Str × β)) (k k2 : Str) (v : β) :
    dictLookup (dictInsert d k v) k2 = if k2 = k then some v else dictLookup d k2 := by
  induction d with
  | nil =>
    by_cases h : k2 = k
    · subst h; simp [dictInsert, dictLookup]
    · have h2 : ¬(k = k2) := fun hh => h hh.symm
      simp [dictInsert, dictLookup, beq_iff_eq, h, h2]
  | cons p rest ih =>
    rcases p with ⟨a, b⟩
    by_cases hak : a = k
    · subst hak
      by_cases h2 : a = k2
      · subst h2; simp [dictInsert, dictLookup]
      · have h3 : ¬(k2 = a) := fun hh => h2 hh.symm
        simp [dictInsert, dictLookup, beq_iff_eq, h2, h3]
    · by_cases h2 : a = k2
      · subst h2
        have h3 : ¬(a = k) := hak
        simp [dictInsert, dictLookup, beq_iff_eq, hak, h3]
      · simp [dictInsert, dictLookup, beq_iff_eq, hak, h2, ih]

theorem mem_dictInsert {β : Type} (d : List (Str × β)) (k : Str) (v : β) (p : Str × β)
    (h : p ∈ dictInsert d k v) : p ∈ d ∨ p = (k, v) := by
  induction d with
  | nil =>
    simp [dictInsert] at h
    exact Or.inr h
  | cons q rest ih =>
    rcases q with ⟨a, b⟩
    by_cases hak : a = k
    · subst hak
      simp only [dictInsert, beq_self_eq_true, if_pos] at h
      rcases List.mem_cons.mp h with h1 | h1
      · exact Or.inr (by simpa using h1)
      · exact Or.inl (List.mem_cons_of_mem _ h1)
    · rw [dictInsert, show (a == k) = false from beq_eq_false_iff_ne.mpr hak] at h
      simp only [Bool.false_eq_true, if_neg] at h
      rcases List.mem_cons.mp h with h1 | h1
      · exact Or.inl (by rw [h1]; exact List.mem_cons_self _ _)
      · rcases ih h1 with h2 | h2
        · exact Or.inl (List.mem_cons_of_mem _ h2)
        · exact Or.inr h2

theorem dictLookup_mem {β : Type} (d : List (Str × β)) (k : Str) (v : β)
    (h : dictLookup d k = some v) : (k, v) ∈ d := by
  induction d with
  | nil => simp [dictLookup] at h
  | cons p rest ih =>
    rcases p with ⟨a, b⟩
    by_cases hak : a = k
    · subst hak
      simp [dictLookup] at h
      subst h
      exact List.mem_cons_self _ _
    · rw [dictLookup, show (a == k) = false from beq_eq_false_iff_ne.mpr hak] at h
      simp only [Bool.false_eq_true, if_neg] at h
      exact List.mem_cons_of_mem _ (ih h)

theorem dictLookup_isSome_of_mem_keys {β : Type} (d : List (Str × β)) (k : Str)
    (h : k ∈ d.map (·.1)) : (dictLookup d k).isSome := by
  induction d with
  | nil => simp at h
  | cons p rest ih =>
    rcases p with ⟨a, b⟩
    by_cases hak : a = k
    · subst hak; simp [dictLookup]
    · rw [dictLookup, show (a == k) = false from beq_eq_false_iff_ne.mpr hak]
      simp only [Bool.false_eq_true, if_neg]
      apply ih
      rw [List.map_cons] at h
      rcases List.mem_cons.mp h with h1 | h1
      · exact absurd h1.symm hak
      · exact h1

/-- Lookup in the car-name index built over an initial dict: the last car
whose lower-cased name is the key wins, falling back to the initial dict. -/
theorem dictLookup_foldl_build (l : List Car) (d : List (Str × Car)) (k : Str) :
    dictLookup (l.foldl (fun d2 c => dictInsert d2 (pyLowerS c.name) c) d) k =
      (l.reverse.find? (fun c => pyLowerS c.name == k)).or (dictLookup d k) := by
  induction l generalizing d with
  | nil => simp
  | cons c l ih =>
    rw [List.foldl_cons, ih, List.reverse_cons, List.find?_append]
    rw [Option.or_assoc]
    congr 1
    rw [dictLookup_dictInsert]
    by_cases h : pyLowerS c.name = k
    · subst h
      simp [List.find?_cons]
    · have h2 : ¬(k = pyLowerS c.name) := fun hh => h hh.symm
      rw [if_neg h2]
      simp [List.find?_cons, show (pyLowerS c.name == k) = false from beq_eq_false_iff_ne.mpr h]

theorem dictLookup_buildCarsByName (cs : List Car) (k : Str) :
    dictLookup (buildCarsByName cs) k =
      cs.reverse.find? (fun c => pyLowerS c.name == k) := by
  rw [buildCarsByName, dictLookup_foldl_build]
  simp [dictLookup]

theorem mem_buildCarsByName (cs : List Car) (p : Str × Car)
    (h : p ∈ buildCarsByName cs) : p.2 ∈ cs ∧ p.1 = pyLowerS p.2.name := by
  rw [buildCarsByName] at h
  suffices h2 : ∀ (d : List (Str × Car)), p ∈ cs.foldl (fun d2 c => dictInsert d2 (pyLowerS c.name) c) d →
      p ∈ d ∨ (p.2 ∈ cs ∧ p.1 = pyLowerS p.2.name) by
    rcases h2 [] h with h3 | h3
    · simp at h3
    · exact h3
  clear h
  induction cs with
  | nil => intro d h; exact Or.inl h
  | cons c l ih =>
    intro d h
    rw [List.foldl_cons] at h
    rcases ih _ h with h1 | h1
    · rcases mem_dictInsert _ _ _ _ h1 with h2 | h2
      · exact Or.inl h2
      · refine Or.inr ⟨?_, ?_⟩
        · rw [h2]; exact List.mem_cons_self _ _
        · rw [h2]
    · exact Or.inr ⟨List.mem_cons_of_mem _ h1.1, h1.2⟩

theorem mem_insDesc {α : Type} (key : α → Int) (acc : List α) (x a : α) :
    a ∈ insDesc key acc x ↔ a ∈ acc ∨ a = x := by
  induction acc with
  | nil => simp [insDesc]
  | cons y ys ih =>
    by_cases h : key y < key x
    · simp [insDesc, h]
      constructor
      · rintro (h1 | h1 | h1)
        · exact Or.inr h1
        · exact Or.inl (Or.inl h1)
        · exact Or.inl (Or.inr h1)
      · rintro ((h1 | h1) | h1)
        · exact Or.inr (Or.inl h1)
        · exact Or.inr (Or.inr h1)
        · exact Or.inl h1
    · simp [insDesc, h, ih, or_assoc]

theorem length_insDesc {α : Type} (key : α → Int) (acc : List α) (x : α) :
    (insDesc key acc x).length = acc.length + 1 := by
  induction acc with
  | nil => simp [insDesc]
  | cons y ys ih =>
    by_cases h : key y < key x
    · simp [insDesc, h]
    · simp [insDesc, h, ih]

theorem mem_pySortDesc {α : Type} (key : α → Int) (l : List α) (a : α) :
    a ∈ pySortDesc key l ↔ a ∈ l := by
  suffices h : ∀ (acc : List α), a ∈ l.foldl (insDesc key) acc ↔ a ∈ acc ∨ a ∈ l by
    rw [pySortDesc, h]
    simp
  induction l with
  | nil => intro acc; simp
  | cons x xs ih =>
    intro acc
    rw [List.foldl_cons, ih, mem_insDesc]
    constructor
    · rintro ((h1 | h1) | h1)
      · exact Or.inl h1
      · exact Or.inr (by rw [h1]; exact List.mem_cons_self _ _)
      · exact Or.inr (List.mem_cons_of_mem _ h1)
    · rintro (h1 | h1)
      · exact Or.inl (Or.inl h1)
      · rcases List.mem_cons.mp h1 with h2 | h2
        · exact Or.inl (Or.inr h2)
        · exact Or.inr h2

theorem length_pySortDesc {α : Type} (key : α → Int) (l : List α) :
    (pySortDesc key l).length = l.length := by
  suffices h : ∀ (acc : List α), (l.foldl (insDesc key) acc).length = acc.length + l.length by
    rw [pySortDesc, h]
    simp
  induction l with
  | nil => intro acc; simp
  | cons x xs ih =>
    intro acc
    rw [List.foldl_cons, ih, length_insDesc]
    simp
    omega

theorem pySortDesc_ne_nil {α : Type} (key : α → Int) (l : List α) (h : l ≠ []) :
    pySortDesc key l ≠ [] := by
  intro h2
  apply h
  have := length_pySortDesc key l
  rw [h2] at this
  exact List.length_eq_zero.mp this.symm

theorem mem_sortCarsByRelevance (cars : List Car) (b : Bool) (c : Car)
    (h : c ∈ sortCarsByRelevance cars b) : c ∈ cars := by
  unfold sortCarsByRelevance at h
  by_cases hb : b = true
  · rw [if_pos hb] at h
    exact (mem_pySortDesc _ _ _).mp h
  · rw [if_neg hb] at h
    exact (List.mem_filter.mp ((mem_pySortDesc _ _ _).mp h)).1

theorem optAll_mem {α : Type} (l : List (Option α)) (l2 : List α) (a : α)
    (h : optAll l = some l2) (ha : a ∈ l2) : some a ∈ l := by
  induction l generalizing l2 with
  | nil =>
    simp [optAll] at h
    subst h
    simp at ha
  | cons o os ih =>
    rcases o with _ | b
    · simp [optAll] at h
    · rw [optAll] at h
      rcases hrec : optAll os with _ | bs
      · rw [hrec] at h; simp at h
      · rw [hrec] at h
        simp only [Option.some.injEq] at h
        subst h
        rcases List.mem_cons.mp ha with h1 | h1
        · rw [h1]; exact List.mem_cons_self _ _
        · exact List.mem_cons_of_mem _ (ih bs hrec h1)

theorem optAll_isSome {α : Type} (l : List (Option α))
    (h : ∀ o ∈ l, o.isSome) : ∃ l2, optAll l = some l2 ∧ l2.length = l.length := by
  induction l with
  | nil => exact ⟨[], rfl, rfl⟩
  | cons o os ih =>
    rcases Option.isSome_iff_exists.mp (h o (List.mem_cons_self _ _)) with ⟨a, ha⟩
    rcases ih (fun x hx => h x (List.mem_cons_of_mem _ hx)) with ⟨l2, h1, h2⟩
    subst ha
    refine ⟨a :: l2, ?_, by simp [h2]⟩
    rw [optAll, h1]

theorem mem_pyDedupAppend {β : Type} [BEq β] (acc : List β) (y a : β)
    (h : a ∈ pyDedupAppend acc y) : a ∈ acc ∨ a = y := by
  unfold pyDedupAppend at h
  by_cases hc : acc.contains y = true
  · rw [if_pos hc] at h
    exact Or.inl h
  · rw [if_neg hc] at h
    rcases List.mem_append.mp h with h1 | h1
    · exact Or.inl h1
    · exact Or.inr (by simpa using h1)

theorem mem_foldl_dedup {α β : Type} [BEq β] (f : α → β) (l : List α) (init : List β) (a : β)
    (h : a ∈ l.foldl (fun acc x => pyDedupAppend acc (f x)) init) :
    a ∈ init ∨ ∃ x ∈ l, a = f x := by
  induction l generalizing init with
  | nil => exact Or.inl h
  | cons x xs ih =>
    rw [List.foldl_cons] at h
    rcases ih _ h with h1 | h1
    · rcases mem_pyDedupAppend _ _ _ h1 with h2 | h2
      · exact Or.inl h2
      · exact Or.inr ⟨x, List.mem_cons_self _ _, h2⟩
    · rcases h1 with ⟨y, hy, hay⟩
      exact Or.inr ⟨y, List.mem_cons_of_mem _ hy, hay⟩

theorem mem_pySetList (l : List Str) (a : Str) (h : a ∈ pySetList l) : a ∈ l := by
  rcases mem_foldl_dedup (fun x => x) l [] a (by simpa [pySetList] using h) with h1 | h1
  · simp at h1
  · rcases h1 with ⟨x, hx, hax⟩
    exact hax ▸ hx

theorem groupInsert_ne_nil (g : List (Str × List Track)) (k : Str) (t : Track) :
    groupInsert g k t ≠ [] := by
  cases g with
  | nil => simp [groupInsert]
  | cons p rest =>
    rcases p with ⟨a, ts⟩
    unfold groupInsert
    by_cases h : a = k
    · simp [beq_iff_eq, h]
    · simp [beq_iff_eq, h]

theorem groupTracks_ne_nil (ts : List Track) (h : ts ≠ []) :
    groupTracksByBaseName ts ≠ [] := by
  suffices h2 : ∀ (g : List (Str × List Track)), g ≠ [] ∨ ts ≠ [] →
      ts.foldl (fun g t => groupInsert g t.name t) g ≠ [] by
    exact h2 [] (Or.inr h)
  clear h
  induction ts with
  | nil =>
    intro g hg
    rcases hg with hg | hg
    · exact hg
    · exact absurd rfl hg
  | cons t rest ih =>
    intro g _
    rw [List.foldl_cons]
    exact ih (groupInsert g t.name t) (Or.inl (groupInsert_ne_nil _ _ _))

theorem groupInsert_groups_ne_nil (g : List (Str × List Track)) (k : Str) (t : Track)
    (h : ∀ p ∈ g, p.2 ≠ []) : ∀ p ∈ groupInsert g k t, p.2 ≠ [] := by
  induction g with
  | nil =>
    intro p hp
    simp [groupInsert] at hp
    rw [hp]
    simp
  | cons q rest ih =>
    rcases q with ⟨a, ts⟩
    intro p hp
    unfold groupInsert at hp
    by_cases hak : a = k
    · rw [show (a == k) = true from beq_iff_eq.mpr hak, if_pos rfl] at hp
      rcases List.mem_cons.mp hp with h1 | h1
      · rw [h1]; simp
      · exact h p (List.mem_cons_of_mem _ h1) |>.imp fun h2 => h2
    · rw [show (a == k) = false from beq_eq_false_iff_ne.mpr hak] at hp
      simp only [Bool.false_eq_true, if_neg] at hp
      rcases List.mem_cons.mp hp with h1 | h1
      · rw [h1]; exact h _ (List.mem_cons_self _ _)
      · exact ih (fun q hq => h q (List.mem_cons_of_mem _ hq)) p h1

theorem groupTracks_groups_ne_nil (ts : List Track) :
    ∀ p ∈ groupTracksByBaseName ts, p.2 ≠ [] := by
  suffices h2 : ∀ (g : List (Str × List Track)), (∀ p ∈ g, p.2 ≠ []) →
      ∀ p ∈ ts.foldl (fun g t => groupInsert g t.name t) g, p.2 ≠ [] by
    exact h2 [] (by simp)
  induction ts with
  | nil => exact fun g hg => hg
  | cons t rest ih =>
    intro g hg
    rw [List.foldl_cons]
    exact ih _ (groupInsert_groups_ne_nil g t.name t hg)

theorem getBestTrackVariant_isSome (variants : List Track) (pr : Bool)
    (h : variants ≠ []) : (getBestTrackVariant variants pr).isSome := by
  unfold getBestTrackVariant
  rw [if_neg (by simpa [List.isEmpty_iff] using h)]
  by_cases h1 : variants.length == 1
  · rw [if_pos h1]
    rcases variants with _ | ⟨v, vs⟩
    · exact absurd rfl h
    · simp
  · rw [if_neg (by simpa using h1)]
    rcases hs : pySortDesc (fun t => getTrackVariantScore t.variant) variants with _ | ⟨v, vs⟩
    · exact absurd hs (pySortDesc_ne_nil _ _ h)
    · simp [hs]

theorem pyMaxBy_isSome {α : Type} (f : α → Int) (l : List α) (h : l ≠ []) :
    (pyMaxBy f l).isSome := by
  rcases l with _ | ⟨x, xs⟩
  · exact absurd rfl h
  · simp [pyMaxBy]

/-! Claim theorems. -/

/-- Concrete close matcher returning no fuzzy candidates, used to close
witness statements; difflib may also return an empty list. -/
def cmNone : CM := fun _ _ _ _ => []

theorem cmNone_ok : CMOk cmNone := by
  intro q ps n c x hx
  simp [cmNone] at hx

/-- C1: the spec requires find_car, find_track and both suggestion
functions to be total, returning an absent result rather than raising.
The code violates this: with the catalog set from the single name
Ford Fusion 2016, find_car("fusion", include_legacy=false) collects one
partial match, the relevance ranking filters it out as legacy, and
sorted_matches[0] raises IndexError (modelled by PyRes.err), for every
close-match function. -/
theorem c1_find_car_crashes_at_failing_input (cm : CM) :
    findCar cm (setCars (CatalogData.names [S ("Ford Fusion 2016")]) emptyCache)
      (S ("fusion")) false = PyRes.err := rfl

/-- C2: with a catalog holding the legacy car Porsche 911 GT3 Cup (991)
and the modern Porsche 911 GT3 Cup (992), find_car("porsche gt3 cup")
with include_legacy=false resolves to the 992 entity, and
find_car("porsche gt3 cup 991") (the query contains the legacy keyword
991) resolves to the 991 entity, id and canonical name included. -/
theorem c2_legacy_filtering (cm : CM) :
    (findCar cm (setCars (CatalogData.objects
        [⟨1, S ("Porsche 911 GT3 Cup (991)")⟩, ⟨2, S ("Porsche 911 GT3 Cup (992)")⟩])
        emptyCache) (S ("porsche gt3 cup")) false =
      PyRes.val (some (2, S ("Porsche 911 GT3 Cup (992)")))) ∧
    (findCar cm (setCars (CatalogData.objects
        [⟨1, S ("Porsche 911 GT3 Cup (991)")⟩, ⟨2, S ("Porsche 911 GT3 Cup (992)")⟩])
        emptyCache) (S ("porsche gt3 cup 991")) false =
      PyRes.val (some (1, S ("Porsche 911 GT3 Cup (991)")))) :=
  ⟨rfl, rfl⟩

/-- C3 counterexample: the name Porsche 911 GT3 Cup (991) contains both
porsche and 991, yet the generation score is 0, not 10, because the
legacy classifier (whose pattern list contains the standalone word 991)
runs before the special-cased manufacturer literals. -/
theorem c3_counterexample :
    strIn (S ("porsche")) (pyLowerS (S ("Porsche 911 GT3 Cup (991)"))) = true ∧
    strIn (S ("991")) (pyLowerS (S ("Porsche 911 GT3 Cup (991)"))) = true ∧
    getCarGenerationScore (S ("Porsche 911 GT3 Cup (991)")) ≠ 10 :=
  ⟨rfl, rfl, by decide⟩

/-- C3 (amended): for every car name that is not legacy-classified and
whose lower-casing contains porsche and 991 but not 992 (the newer
chassis code is checked first), the generation score is 10; the literals
are checked before the year-token and modern-indicator scans, but after
the legacy classifier, which claims names containing 991 as a standalone
word. -/
theorem c3_generation_literals (name : Str)
    (h1 : isLegacyCar name = false)
    (h2 : strIn (S ("porsche")) (pyLowerS name) = true)
    (h3 : strIn (S ("992")) (pyLowerS name) = false)
    (h4 : strIn (S ("991")) (pyLowerS name) = true) :
    getCarGenerationScore name = 10 := by
  simp only [getCarGenerationScore, h1, h2, h3, h4]
  simp

theorem c3_generation_literals_witness :
    isLegacyCar (S ("porsche 9911")) = false ∧
    strIn (S ("porsche")) (pyLowerS (S ("porsche 9911"))) = true ∧
    strIn (S ("992")) (pyLowerS (S ("porsche 9911"))) = false ∧
    strIn (S ("991")) (pyLowerS (S ("porsche 9911"))) = true ∧
    getCarGenerationScore (S ("porsche 9911")) = 10 :=
  ⟨rfl, rfl, rfl, rfl, c3_generation_literals _ rfl rfl rfl rfl⟩

/-- C5: the track variant preference score maps Grand Prix to 100, Short
to 45 and Moto to 40 (so Grand Prix above Short above Moto), and whenever
a variant matches a preferred pattern as well as a less-preferred one,
the score of the first matching preferred pattern is returned, because
every preferred pattern is checked before any less-preferred one. -/
theorem c5_variant_scores :
    getTrackVariantScore (S ("Grand Prix")) = 100 ∧
    getTrackVariantScore (S ("Short")) = 45 ∧
    getTrackVariantScore (S ("Moto")) = 40 ∧
    ∀ (v : Str),
      preferredPatterns.any (fun p => reSearch p.1 (pyLowerS v)) = true →
      lessPreferredPatterns.any (fun p => reSearch p.1 (pyLowerS v)) = true →
      some (getTrackVariantScore v) =
        (preferredPatterns.find? (fun p => reSearch p.1 (pyLowerS v))).map (·.2) := by
  refine ⟨rfl, rfl, rfl, ?_⟩
  intro v hp _
  have hv : v ≠ [] := by
    intro he
    subst he
    exact absurd hp (by decide)
  have hsome : (preferredPatterns.find? (fun p => reSearch p.1 (pyLowerS v))).isSome :=
    List.find?_isSome.mpr (List.any_eq_true.mp hp)
  obtain ⟨pr, hfind⟩ := Option.isSome_iff_exists.mp hsome
  simp only [getTrackVariantScore]
  rw [if_neg (by simpa [List.isEmpty_iff] using hv), hfind]
  simp

theorem c5_variant_scores_witness :
    preferredPatterns.any (fun p => reSearch p.1 (pyLowerS (S ("short grand prix")))) = true ∧
    lessPreferredPatterns.any (fun p => reSearch p.1 (pyLowerS (S ("short grand prix")))) = true ∧
    some (getTrackVariantScore (S ("short grand prix"))) =
      (preferredPatterns.find?
        (fun p => reSearch p.1 (pyLowerS (S ("short grand prix"))))).map (·.2) :=
  ⟨rfl, rfl, c5_variant_scores.2.2.2 (S ("short grand prix")) rfl rfl⟩

/-- C4 counterexample: the catalog holding ids 0 and 1 with names A and a
contains the entity 0 named A, but find_car("A") returns entity 1 (the
last entity whose lower-cased name collides with the key), not entity 0:
the claim fails when several entities share a lower-cased name. -/
theorem c4_counterexample :
    (⟨0, S ("A")⟩ : Car) ∈ (setCars (CatalogData.objects
      [⟨0, S ("A")⟩, ⟨1, S ("a")⟩]) emptyCache).cars ∧
    findCar cmNone (setCars (CatalogData.objects
      [⟨0, S ("A")⟩, ⟨1, S ("a")⟩]) emptyCache) (S ("A")) false =
      PyRes.val (some (1, S ("a"))) :=
  ⟨by simp [setCars, carsFromData], rfl⟩

/-- C9 counterexample: entity 0 of the catalog is legacy-classified
(Ford Fusion 2016), yet find_car on its exact name with
include_legacy=false returns entity 1 (last duplicate of the lower-cased
key), not entity 0: exact lookup bypasses legacy filtering but returns
the last entity sharing the lower-cased name. -/
theorem c9_counterexample :
    isLegacyCar (S ("Ford Fusion 2016")) = true ∧
    (⟨0, S ("Ford Fusion 2016")⟩ : Car) ∈ (setCars (CatalogData.objects
      [⟨0, S ("Ford Fusion 2016")⟩, ⟨1, S ("FORD FUSION 2016")⟩]) emptyCache).cars ∧
    findCar cmNone (setCars (CatalogData.objects
      [⟨0, S ("Ford Fusion 2016")⟩, ⟨1, S ("FORD FUSION 2016")⟩]) emptyCache)
      (S ("Ford Fusion 2016")) false =
      PyRes.val (some (1, S ("FORD FUSION 2016"))) :=
  ⟨rfl, by simp [setCars, carsFromData], rfl⟩

/-- C7 counterexample: with two identical tracks (ids 0 and 1, base a,
variant v), both the space-form key and the dash-form key of entity 0 map
to entity 1 in the index, so entity 0 is not reachable via either of its
two variant-derived keys. -/
theorem c7_counterexample :
    (⟨0, S ("a"), S ("v")⟩ : Track) ∈ (setTracks (CatalogData.objects
      [⟨0, S ("a"), S ("v")⟩, ⟨1, S ("a"), S ("v")⟩]) emptyCache).tracks ∧
    (⟨0, S ("a"), S ("v")⟩ : Track).variant.isEmpty = false ∧
    dictLookup (setTracks (CatalogData.objects
      [⟨0, S ("a"), S ("v")⟩, ⟨1, S ("a"), S ("v")⟩]) emptyCache).tracksByName
      (spaceKey ⟨0, S ("a"), S ("v")⟩) ≠ some ⟨0, S ("a"), S ("v")⟩ ∧
    dictLookup (setTracks (CatalogData.objects
      [⟨0, S ("a"), S ("v")⟩, ⟨1, S ("a"), S ("v")⟩]) emptyCache).tracksByName
      (dashKey ⟨0, S ("a"), S ("v")⟩) ≠ some ⟨0, S ("a"), S ("v")⟩ := by
  refine ⟨by simp [setTracks, tracksFromData], rfl, by decide, by decide⟩

theorem dictLookup_build_unique (cs : List Car) (E : Car) (hm : E ∈ cs)
    (hu : ∀ c ∈ cs, pyLowerS c.name = pyLowerS E.name → c = E) :
    dictLookup (buildCarsByName cs) (pyLowerS E.name) = some E := by
  rw [dictLookup_buildCarsByName]
  have hs : (cs.reverse.find? (fun c => pyLowerS c.name == pyLowerS E.name)).isSome :=
    List.find?_isSome.mpr ⟨E, List.mem_reverse.mpr hm, beq_self_eq_true _⟩
  obtain ⟨v, hv⟩ := Option.isSome_iff_exists.mp hs
  have h1 := List.find?_some hv
  have h2 := List.mem_of_find?_eq_some hv
  rw [hv, hu v (List.mem_reverse.mp h2) (beq_iff_eq.mp h1)]

theorem findCar_exact (cm : CM) (st : CacheState) (q : Str) (f : Bool) (E : Car)
    (hlook : dictLookup st.carsByName (pyLowerS q) = some E) :
    findCar cm st q f = PyRes.val (some (E.id, E.name)) := by
  simp only [findCar]
  rw [hlook]

/-- C4 (amended): for every catalog state built by set_cars and every
entity E that is the only stored car with its lower-cased name, find_car
on E's exact name and on its upper-cased form both return E's id and
canonical name, whatever the include_legacy flag would have filtered:
exact matching is case-insensitive and precedes partial and fuzzy
matching.  (When several entities share the lower-cased name, the last
one wins instead, as the counterexample shows.) -/
theorem c4_exact_match_precedence (cm : CM) (input : CatalogData Car) (s : CacheState)
    (E : Car) (hm : E ∈ (setCars input s).cars)
    (hu : ∀ c ∈ (setCars input s).cars, pyLowerS c.name = pyLowerS E.name → c = E) :
    findCar cm (setCars input s) E.name false = PyRes.val (some (E.id, E.name)) ∧
    findCar cm (setCars input s) (pyUpperS E.name) false = PyRes.val (some (E.id, E.name)) := by
  have hlook : dictLookup (setCars input s).carsByName (pyLowerS E.name) = some E :=
    dictLookup_build_unique _ E hm hu
  constructor
  · exact findCar_exact cm _ E.name false E hlook
  · refine findCar_exact cm _ (pyUpperS E.name) false E ?_
    rw [pyLowerS_pyUpperS]
    exact hlook

theorem c4_exact_match_precedence_witness :
    ((⟨5, S ("McLaren 720S")⟩ : Car) ∈
      (setCars (CatalogData.objects [⟨5, S ("McLaren 720S")⟩]) emptyCache).cars) ∧
    (findCar cmNone (setCars (CatalogData.objects [⟨5, S ("McLaren 720S")⟩]) emptyCache)
      (S ("McLaren 720S")) false = PyRes.val (some (5, S ("McLaren 720S")))) ∧
    (findCar cmNone (setCars (CatalogData.objects [⟨5, S ("McLaren 720S")⟩]) emptyCache)
      (pyUpperS (S ("McLaren 720S"))) false = PyRes.val (some (5, S ("McLaren 720S")))) := by
  have hm : (⟨5, S ("McLaren 720S")⟩ : Car) ∈
      (setCars (CatalogData.objects [⟨5, S ("McLaren 720S")⟩]) emptyCache).cars := by
    simp [setCars, carsFromData]
  have hu : ∀ c ∈ (setCars (CatalogData.objects [⟨5, S ("McLaren 720S")⟩]) emptyCache).cars,
      pyLowerS c.name = pyLowerS (Car.name ⟨5, S ("McLaren 720S")⟩) →
      c = ⟨5, S ("McLaren 720S")⟩ := by
    intro c hc _
    simpa [setCars, carsFromData] using hc
  have h := c4_exact_match_precedence cmNone (CatalogData.objects [⟨5, S ("McLaren 720S")⟩])
    emptyCache ⟨5, S ("McLaren 720S")⟩ hm hu
  exact ⟨hm, h.1, h.2⟩

/-- C9 (amended): exact-name lookup bypasses legacy filtering: for every
catalog state built by set_cars and every legacy-classified entity E that
is the only stored car with its lower-cased name, find_car on any query
that lower-cases to E's lower-cased name, with include_legacy=false,
returns E's id and name, because the exact-match step precedes legacy
filtering and ranking.  (With duplicate lower-cased names the last
duplicate wins, as the counterexample shows.) -/
theorem c9_exact_bypasses_legacy (cm : CM) (input : CatalogData Car) (s : CacheState)
    (E : Car) (hleg : isLegacyCar E.name = true)
    (hm : E ∈ (setCars input s).cars)
    (hu : ∀ c ∈ (setCars input s).cars, pyLowerS c.name = pyLowerS E.name → c = E)
    (q : Str) (hq : pyLowerS q = pyLowerS E.name) :
    findCar cm (setCars input s) q false = PyRes.val (some (E.id, E.name)) := by
  refine findCar_exact cm _ q false E ?_
  rw [hq]
  exact dictLookup_build_unique _ E hm hu

theorem c9_exact_bypasses_legacy_witness :
    isLegacyCar (S ("Ford Fusion 2016")) = true ∧
    pyLowerS (S ("FORD fusion 2016")) = pyLowerS (S ("Ford Fusion 2016")) ∧
    findCar cmNone (setCars (CatalogData.objects [⟨3, S ("Ford Fusion 2016")⟩]) emptyCache)
      (S ("FORD fusion 2016")) false = PyRes.val (some (3, S ("Ford Fusion 2016"))) := by
  refine ⟨rfl, rfl, ?_⟩
  refine c9_exact_bypasses_legacy cmNone _ emptyCache ⟨3, S ("Ford Fusion 2016")⟩ rfl
    (by simp [setCars, carsFromData]) ?_ (S ("FORD fusion 2016")) rfl
  intro c hc _
  simpa [setCars, carsFromData] using hc

theorem isLegacyCar_congr (a b : Str) (h : pyLowerS a = pyLowerS b) :
    isLegacyCar a = isLegacyCar b := by
  unfold isLegacyCar
  rw [h]

/-- C8: whenever the car catalog built by set_cars contains at least one
non-legacy car, find_car("") with include_legacy=false returns some
entity rather than not-found: the empty string is a substring of every
index key, so every stored car becomes a partial-match candidate, the
legacy filter keeps at least one, and the head of the relevance ranking
is returned. -/
theorem c8_empty_query_returns_entity (cm : CM) (input : CatalogData Car) (s : CacheState)
    (h : ∃ c ∈ (setCars input s).cars, isLegacyCar c.name = false) :
    ∃ i n, findCar cm (setCars input s) (S ("")) false = PyRes.val (some (i, n)) := by
  obtain ⟨c, hc, hcleg⟩ := h
  have hcars : (setCars input s).cars = carsFromData input := rfl
  have hidx : (setCars input s).carsByName = buildCarsByName (carsFromData input) := rfl
  have hs : ((carsFromData input).reverse.find?
      (fun d => pyLowerS d.name == pyLowerS c.name)).isSome :=
    List.find?_isSome.mpr ⟨c, List.mem_reverse.mpr (hcars ▸ hc), beq_self_eq_true _⟩
  obtain ⟨v, hv⟩ := Option.isSome_iff_exists.mp hs
  have hvpred : pyLowerS v.name = pyLowerS c.name := by
    have hp := List.find?_some hv
    simpa [beq_iff_eq] using hp
  have hvleg : isLegacyCar v.name = false := by
    rw [isLegacyCar_congr v.name c.name hvpred]
    exact hcleg
  have hlookup : dictLookup (setCars input s).carsByName (pyLowerS c.name) = some v := by
    rw [hidx, dictLookup_buildCarsByName]
    exact hv
  have hvmem : (pyLowerS c.name, v) ∈ (setCars input s).carsByName :=
    dictLookup_mem _ _ _ hlookup
  have hzero : pyLowerS (S ("")) = ([] : Str) := rfl
  rcases hq : dictLookup (setCars input s).carsByName ([] : Str) with _ | car
  · -- no empty-name key: the partial-match stage fires
    simp only [findCar]
    rw [hzero, hq]
    rw [show pySplit ([] : Str) = [] from rfl]
    simp only [strIn_nil, Bool.true_or, List.all_nil, List.filter_true]
    have hvmem2 : v ∈ (setCars input s).carsByName.map (·.2) :=
      List.mem_map.mpr ⟨(pyLowerS c.name, v), hvmem, rfl⟩
    have hne : ((setCars input s).carsByName.map (·.2)).isEmpty = false := by
      rw [List.isEmpty_eq_false]
      exact List.ne_nil_of_mem hvmem2
    rw [hne, if_neg Bool.false_ne_true]
    have hvfil : v ∈ ((setCars input s).carsByName.map (·.2)).filter
        (fun car => !isLegacyCar car.name) :=
      List.mem_filter.mpr ⟨hvmem2, by rw [hvleg]; rfl⟩
    have hsne : sortCarsByRelevance ((setCars input s).carsByName.map (·.2))
        (false || legacyKeywords.any (fun k => strIn k [])) ≠ [] := by
      rw [show (false || legacyKeywords.any (fun k => strIn k ([] : Str))) = false from rfl]
      unfold sortCarsByRelevance
      rw [if_neg (by simp)]
      exact pySortDesc_ne_nil _ _ (List.ne_nil_of_mem hvfil)
    rcases hsort : sortCarsByRelevance ((setCars input s).carsByName.map (·.2))
        (false || legacyKeywords.any (fun k => strIn k [])) with _ | ⟨b, rest⟩
    · exact absurd hsort hsne
    · rw [hsort]
      by_cases hlen : ((b :: rest).length == 1) = true
      · rw [if_pos hlen]
        exact ⟨b.id, b.name, rfl⟩
      · rw [if_neg hlen]
        rw [show List.find? (fun (m : Car) => true) (b :: rest) = some b from by
          rw [List.find?_cons]]
        exact ⟨b.id, b.name, rfl⟩
  · -- an entity with an empty lower-cased name is an exact match
    refine ⟨car.id, car.name, ?_⟩
    simp only [findCar]
    rw [hzero, hq]

theorem c8_empty_query_returns_entity_witness :
    (∃ c ∈ (setCars (CatalogData.names [S ("BMW M4")]) emptyCache).cars,
      isLegacyCar c.name = false) ∧
    (∃ i n, findCar cmNone (setCars (CatalogData.names [S ("BMW M4")]) emptyCache)
      (S ("")) false = PyRes.val (some (i, n))) := by
  have h : ∃ c ∈ (setCars (CatalogData.names [S ("BMW M4")]) emptyCache).cars,
      isLegacyCar c.name = false := by
    refine ⟨⟨0, S ("BMW M4")⟩, ?_, rfl⟩
    show (⟨0, S ("BMW M4")⟩ : Car) ∈ [⟨0, S ("BMW M4")⟩]
    exact List.mem_singleton.mpr rfl
  exact ⟨h, c8_empty_query_returns_entity cmNone _ _ h⟩

theorem mem_filterMap_snd {β : Type} (l : List (Str × β)) (pred : Str × β → Bool) (c : β)
    (h : c ∈ (l.filter pred).map (·.2)) : ∃ k, (k, c) ∈ l := by
  rcases List.mem_map.mp h with ⟨p, hp, hpc⟩
  refine ⟨p.1, ?_⟩
  rw [← hpc]
  simpa using (List.mem_filter.mp hp).1

theorem findCar_sound (cm : CM) (st : CacheState) (q : Str) (f : Bool) (i : Int) (n : Str)
    (h : findCar cm st q f = PyRes.val (some (i, n))) :
    ∃ k c, (k, c) ∈ st.carsByName ∧ c.id = i ∧ c.name = n := by
  simp only [findCar] at h
  set P : Str × Car → Bool := fun p =>
    strIn (pyLowerS q) p.1 || strIn p.1 (pyLowerS q) ||
      (pySplit (pyLowerS q)).all fun w => strIn w p.1 with hP
  set B : Bool := f || legacyKeywords.any fun k => strIn k (pyLowerS q) with hB
  split at h
  · rename_i car heq
    simp only [PyRes.val.injEq, Option.some.injEq, Prod.mk.injEq] at h
    exact ⟨_, car, dictLookup_mem _ _ _ heq, h.1, h.2⟩
  · split at h
    · -- fuzzy stage
      split at h
      · simp at h
      · split at h
        · exact absurd h (by simp)
        · rename_i matchCars hopt
          split at h
          · rename_i best tail hsort
            simp only [PyRes.val.injEq, Option.some.injEq, Prod.mk.injEq] at h
            have hb : best ∈ matchCars := by
              refine mem_sortCarsByRelevance _
                (f || legacyKeywords.any fun k => strIn k (pyLowerS q)) _ ?_
              rw [hsort]
              exact List.mem_cons_self _ _
            have h2 := optAll_mem _ _ _ hopt hb
            rcases List.mem_map.mp h2 with ⟨m, _, hlm⟩
            exact ⟨m, best, dictLookup_mem _ _ _ hlm, h.1, h.2⟩
          · simp at h
    · -- partial stage
      split at h
      · split at h
        · rename_i m tail hsort
          simp only [PyRes.val.injEq, Option.some.injEq, Prod.mk.injEq] at h
          have hm : m ∈ (List.filter P st.carsByName).map (fun x => x.2) :=
            mem_sortCarsByRelevance ((List.filter P st.carsByName).map (fun x => x.2)) B m
              (by rw [hsort]; exact List.mem_cons_self _ _)
          rcases mem_filterMap_snd _ _ _ hm with ⟨k, hk⟩
          exact ⟨k, m, hk, h.1, h.2⟩
        · exact absurd h (by simp)
      · split at h
        · rename_i m hfind
          simp only [PyRes.val.injEq, Option.some.injEq, Prod.mk.injEq] at h
          have hm : m ∈ (List.filter P st.carsByName).map (fun x => x.2) :=
            mem_sortCarsByRelevance ((List.filter P st.carsByName).map (fun x => x.2)) B m
              (List.mem_of_find?_eq_some hfind)
          rcases mem_filterMap_snd _ _ _ hm with ⟨k, hk⟩
          exact ⟨k, m, hk, h.1, h.2⟩
        · split at h
          · rename_i best tail hsort
            simp only [PyRes.val.injEq, Option.some.injEq, Prod.mk.injEq] at h
            have hm : best ∈ (List.filter P st.carsByName).map (fun x => x.2) :=
              mem_sortCarsByRelevance ((List.filter P st.carsByName).map (fun x => x.2)) B best
                (by rw [hsort]; exact List.mem_cons_self _ _)
            rcases mem_filterMap_snd _ _ _ hm with ⟨k, hk⟩
            exact ⟨k, best, hk, h.1, h.2⟩
          · exact absurd h (by simp)

theorem getCarSuggestions_sound (cm : CM) (st : CacheState) (q : Str) (lim : Nat) (f : Bool)
    (names : List Str) (h : getCarSuggestions cm st q lim f = PyRes.val names) :
    ∀ nm ∈ names, ∃ k c, (k, c) ∈ st.carsByName ∧ c.name = nm := by
  simp only [getCarSuggestions] at h
  split at h
  · exact absurd h (by simp)
  · rename_i fuzzyCars hopt
    simp only [PyRes.val.injEq] at h
    intro nm hnm
    rw [← h] at hnm
    rcases List.mem_map.mp hnm with ⟨c, hc, hcn⟩
    have hc2 : c ∈ sortCarsByRelevance _ _ := List.mem_of_mem_take hc
    have hc3 := mem_sortCarsByRelevance _ _ _ hc2
    rcases mem_foldl_dedup (fun x => x) fuzzyCars _ c hc3 with h1 | h1
    · rcases mem_filterMap_snd _ _ _ h1 with ⟨k, hk⟩
      exact ⟨k, c, hk, hcn⟩
    · rcases h1 with ⟨x, hx, hcx⟩
      have hcx2 : c = x := hcx
      subst hcx2
      have h2 := optAll_mem _ _ _ hopt hx
      rcases List.mem_map.mp h2 with ⟨m, _, hlm⟩
      exact ⟨m, c, dictLookup_mem _ _ _ hlm, hcn⟩

/-- C6: catalog replacement is complete: after set_cars(listA) then
set_cars(listB), the stored car list and the car-name index coincide with
those of set_cars(listB) alone, every entity resolved by find_car is a
stored entity of the listB-derived catalog, and every suggestion returned
by get_car_suggestions is the name of such an entity, so nothing that
appears only in listA is reachable. -/
theorem c6_catalog_replace (A B : CatalogData Car) (s : CacheState) (cm : CM)
    (qf qs : Str) (flag : Bool) (lim : Nat) (i : Int) (n : Str) (names : List Str)
    (h1 : findCar cm (setCars B (setCars A s)) qf flag = PyRes.val (some (i, n)))
    (h2 : getCarSuggestions cm (setCars B (setCars A s)) qs lim flag = PyRes.val names) :
    (setCars B (setCars A s)).cars = (setCars B s).cars ∧
    (setCars B (setCars A s)).carsByName = (setCars B s).carsByName ∧
    (∃ c ∈ (setCars B s).cars, c.id = i ∧ c.name = n) ∧
    (∀ nm ∈ names, ∃ c ∈ (setCars B s).cars, c.name = nm) := by
  refine ⟨rfl, rfl, ?_, ?_⟩
  · rcases findCar_sound cm _ qf flag i n h1 with ⟨k, c, hk, hid, hn⟩
    have hm := mem_buildCarsByName (carsFromData B) (k, c) hk
    exact ⟨c, hm.1, hid, hn⟩
  · intro nm hnm
    rcases getCarSuggestions_sound cm _ qs lim flag names h2 nm hnm with ⟨k, c, hk, hn⟩
    have hm := mem_buildCarsByName (carsFromData B) (k, c) hk
    exact ⟨c, hm.1, hn⟩

theorem c6_catalog_replace_witness :
    (findCar cmNone (setCars (CatalogData.objects [⟨9, S ("BMW M4")⟩])
        (setCars (CatalogData.objects [⟨7, S ("Ford Fusion 2016")⟩]) emptyCache))
      (S ("bmw m4")) false = PyRes.val (some (9, S ("BMW M4")))) ∧
    (getCarSuggestions cmNone (setCars (CatalogData.objects [⟨9, S ("BMW M4")⟩])
        (setCars (CatalogData.objects [⟨7, S ("Ford Fusion 2016")⟩]) emptyCache))
      (S ("bmw")) 5 false = PyRes.val [S ("BMW M4")]) ∧
    ((setCars (CatalogData.objects [⟨9, S ("BMW M4")⟩])
        (setCars (CatalogData.objects [⟨7, S ("Ford Fusion 2016")⟩]) emptyCache)).cars =
      (setCars (CatalogData.objects [⟨9, S ("BMW M4")⟩]) emptyCache).cars ∧
    (setCars (CatalogData.objects [⟨9, S ("BMW M4")⟩])
        (setCars (CatalogData.objects [⟨7, S ("Ford Fusion 2016")⟩]) emptyCache)).carsByName =
      (setCars (CatalogData.objects [⟨9, S ("BMW M4")⟩]) emptyCache).carsByName ∧
    (∃ c ∈ (setCars (CatalogData.objects [⟨9, S ("BMW M4")⟩]) emptyCache).cars,
      c.id = 9 ∧ c.name = S ("BMW M4")) ∧
    (∀ nm ∈ [S ("BMW M4")],
      ∃ c ∈ (setCars (CatalogData.objects [⟨9, S ("BMW M4")⟩]) emptyCache).cars,
        c.name = nm)) :=
  ⟨rfl, rfl, c6_catalog_replace (CatalogData.objects [⟨7, S ("Ford Fusion 2016")⟩])
    (CatalogData.objects [⟨9, S ("BMW M4")⟩]) emptyCache cmNone
    (S ("bmw m4")) (S ("bmw")) false 5 9 (S ("BMW M4")) [S ("BMW M4")] rfl rfl⟩

/-- Variant-derived index keys a track writes unconditionally in
set_tracks: none without a variant, else the space form and the dash
form. -/
def genKeys (t : Track) : List Str :=
  if t.variant.isEmpty then [] else [spaceKey t, dashKey t]

/-- Last track of the list (in input order) that writes the given key via
its variant-derived key forms. -/
def lastGen (ts : List Track) (k : Str) : Option Track :=
  ts.reverse.find? (fun t => (genKeys t).contains k)

theorem trackIndexStep_hit (d : List (Str × Track)) (u : Track) (k : Str)
    (h : k ∈ genKeys u) : dictLookup (trackIndexStep d u) k = some u := by
  by_cases hv : u.variant.isEmpty
  · rw [genKeys, if_pos hv] at h
    simp at h
  · rw [genKeys, if_neg hv] at h
    have hvb : u.variant.isEmpty = false := Bool.not_eq_true _ |>.mp hv
    simp only [trackIndexStep, hvb, Bool.not_false, if_pos]
    by_cases hd : k = dashKey u
    · rw [dictLookup_dictInsert, if_pos hd]
    · have hsK : k = spaceKey u := by
        rcases List.mem_cons.mp h with h1 | h1
        · exact h1
        · exact absurd (List.mem_singleton.mp h1) hd
      rw [dictLookup_dictInsert, if_neg hd, dictLookup_dictInsert, if_pos hsK]

theorem trackIndexStep_skip (d : List (Str × Track)) (u : Track) (k : Str)
    (h : ¬k ∈ genKeys u) (hsome : (dictLookup d k).isSome) :
    dictLookup (trackIndexStep d u) k = dictLookup d k := by
  have hbase : dictLookup
      (if !(baseKey u).isEmpty && (dictLookup d (baseKey u)).isNone
       then dictInsert d (baseKey u) u else d) k = dictLookup d k := by
    by_cases hb : (!(baseKey u).isEmpty && (dictLookup d (baseKey u)).isNone) = true
    · rw [if_pos hb, dictLookup_dictInsert]
      have hne : ¬k = baseKey u := by
        intro he
        rw [← he] at hb
        rcases Option.isSome_iff_exists.mp hsome with ⟨x, hx⟩
        simp [hx] at hb
      rw [if_neg hne]
    · rw [if_neg hb]
  by_cases hv : u.variant.isEmpty
  · simp only [trackIndexStep, hv, Bool.not_true, Bool.false_eq_true, if_neg]
    exact hbase
  · have hvb : u.variant.isEmpty = false := Bool.not_eq_true _ |>.mp hv
    rw [genKeys, if_neg hv] at h
    have hs : ¬k = spaceKey u := fun he => h (he ▸ List.mem_cons_self _ _)
    have hd : ¬k = dashKey u := fun he => h (by rw [he]; simp)
    simp only [trackIndexStep, hvb, Bool.not_false, if_pos]
    rw [dictLookup_dictInsert, if_neg hd, dictLookup_dictInsert, if_neg hs]
    exact hbase

theorem foldl_trackIndexStep_skip (ts : List Track) (k : Str)
    (h : ∀ t ∈ ts, ¬k ∈ genKeys t) :
    ∀ (d : List (Str × Track)), (dictLookup d k).isSome →
      dictLookup (ts.foldl trackIndexStep d) k = dictLookup d k := by
  induction ts with
  | nil => intro d _; rfl
  | cons u rest ih =>
    intro d hsome
    rw [List.foldl_cons]
    have hstep := trackIndexStep_skip d u k (h u (List.mem_cons_self _ _)) hsome
    rw [ih (fun t ht => h t (List.mem_cons_of_mem _ ht)) _ (by rw [hstep]; exact hsome), hstep]

theorem lookup_buildTracks_lastGen (ts : List Track) (k : Str) :
    ∀ (d : List (Str × Track)), (∃ t ∈ ts, k ∈ genKeys t) →
      dictLookup (ts.foldl trackIndexStep d) k = lastGen ts k := by
  induction ts with
  | nil =>
    intro d h
    simp at h
  | cons u rest ih =>
    intro d h
    rw [List.foldl_cons]
    by_cases hrest : ∃ t ∈ rest, k ∈ genKeys t
    · rw [ih _ hrest]
      unfold lastGen
      rw [List.reverse_cons, List.find?_append]
      rcases hrest with ⟨t, ht, hkt⟩
      have hsome : (rest.reverse.find? (fun t => (genKeys t).contains k)).isSome :=
        List.find?_isSome.mpr ⟨t, List.mem_reverse.mpr ht, List.elem_iff.mpr hkt⟩
      rcases Option.isSome_iff_exists.mp hsome with ⟨x, hx⟩
      rw [hx]
      rfl
    · have hu : k ∈ genKeys u := by
        rcases h with ⟨t, ht, hkt⟩
        rcases List.mem_cons.mp ht with h1 | h1
        · exact h1 ▸ hkt
        · exact absurd ⟨t, h1, hkt⟩ hrest
      have hhit := trackIndexStep_hit d u k hu
      have hnone : ∀ t ∈ rest, ¬k ∈ genKeys t := by
        intro t ht hkt
        exact hrest ⟨t, ht, hkt⟩
      rw [foldl_trackIndexStep_skip rest k hnone _ (by rw [hhit]; rfl), hhit]
      unfold lastGen
      have hnonefind : rest.reverse.find? (fun t => (genKeys t).contains k) = none := by
        rw [List.find?_eq_none]
        intro x hx hc
        exact hnone x (List.mem_reverse.mp hx) (List.elem_iff.mp (by simpa using hc))
      rw [List.reverse_cons, List.find?_append, hnonefind]
      simp [List.find?_cons, hu]

/-- C7 (amended): for every track catalog built by set_tracks and every
stored TrackEntity t with a non-empty variant, the lower-cased space form
and dash form of its full name are both present as index keys, and each
maps to the last stored TrackEntity (in input order) that generates that
key through its own variant-derived forms; in particular each maps to t
itself when no later entity regenerates the key, but a later duplicate or
colliding entity overwrites the mapping, as the counterexample shows. -/
theorem c7_track_variant_keys (input : CatalogData Track) (s : CacheState)
    (t : Track) (hm : t ∈ (setTracks input s).tracks) (hv : t.variant.isEmpty = false) :
    dictLookup (setTracks input s).tracksByName (spaceKey t) =
      lastGen (setTracks input s).tracks (spaceKey t) ∧
    dictLookup (setTracks input s).tracksByName (dashKey t) =
      lastGen (setTracks input s).tracks (dashKey t) ∧
    (lastGen (setTracks input s).tracks (spaceKey t)).isSome ∧
    (lastGen (setTracks input s).tracks (dashKey t)).isSome := by
  have hks : spaceKey t ∈ genKeys t := by
    rw [genKeys, if_neg (by rw [hv]; exact Bool.false_ne_true)]
    exact List.mem_cons_self _ _
  have hkd : dashKey t ∈ genKeys t := by
    rw [genKeys, if_neg (by rw [hv]; exact Bool.false_ne_true)]
    simp
  have htr : (setTracks input s).tracks = tracksFromData input := rfl
  have hidx : (setTracks input s).tracksByName =
      (tracksFromData input).foldl trackIndexStep [] := rfl
  refine ⟨?_, ?_, ?_, ?_⟩
  · rw [hidx, htr]
    exact lookup_buildTracks_lastGen _ _ _ ⟨t, htr ▸ hm, hks⟩
  · rw [hidx, htr]
    exact lookup_buildTracks_lastGen _ _ _ ⟨t, htr ▸ hm, hkd⟩
  · exact List.find?_isSome.mpr ⟨t, List.mem_reverse.mpr hm, List.elem_iff.mpr hks⟩
  · exact List.find?_isSome.mpr ⟨t, List.mem_reverse.mpr hm, List.elem_iff.mpr hkd⟩

theorem c7_track_variant_keys_witness :
    ((⟨0, S ("a"), S ("v")⟩ : Track) ∈
      (setTracks (CatalogData.objects [⟨0, S ("a"), S ("v")⟩]) emptyCache).tracks) ∧
    (⟨0, S ("a"), S ("v")⟩ : Track).variant.isEmpty = false ∧
    (dictLookup (setTracks (CatalogData.objects [⟨0, S ("a"), S ("v")⟩])
        emptyCache).tracksByName (spaceKey ⟨0, S ("a"), S ("v")⟩) =
      lastGen (setTracks (CatalogData.objects [⟨0, S ("a"), S ("v")⟩]) emptyCache).tracks
        (spaceKey ⟨0, S ("a"), S ("v")⟩) ∧
    dictLookup (setTracks (CatalogData.objects [⟨0, S ("a"), S ("v")⟩])
        emptyCache).tracksByName (dashKey ⟨0, S ("a"), S ("v")⟩) =
      lastGen (setTracks (CatalogData.objects [⟨0, S ("a"), S ("v")⟩]) emptyCache).tracks
        (dashKey ⟨0, S ("a"), S ("v")⟩) ∧
    (lastGen (setTracks (CatalogData.objects [⟨0, S ("a"), S ("v")⟩]) emptyCache).tracks
      (spaceKey ⟨0, S ("a"), S ("v")⟩)).isSome ∧
    (lastGen (setTracks (CatalogData.objects [⟨0, S ("a"), S ("v")⟩]) emptyCache).tracks
      (dashKey ⟨0, S ("a"), S ("v")⟩)).isSome) := by
  have hm : (⟨0, S ("a"), S ("v")⟩ : Track) ∈
      (setTracks (CatalogData.objects [⟨0, S ("a"), S ("v")⟩]) emptyCache).tracks := by
    show (⟨0, S ("a"), S ("v")⟩ : Track) ∈ [⟨0, S ("a"), S ("v")⟩]
    exact List.mem_singleton.mpr rfl
  exact ⟨hm, rfl, c7_track_variant_keys _ emptyCache _ hm rfl⟩

theorem bestGroupedResult_ne_err (q : Str) (pr : Bool) (mt : List Track)
    (hmt : mt ≠ []) : bestGroupedResult q pr mt ≠ PyRes.err := by
  simp only [bestGroupedResult]
  split
  · rename_i hlen1
    split
    · rename_i p hhead
      split
      · simp
      · rename_i hbest
        exfalso
        have hmem : p ∈ groupTracksByBaseName mt :=
          List.mem_of_mem_head? (by rw [hhead]; rfl)
        have h4 := getBestTrackVariant_isSome _ pr (groupTracks_groups_ne_nil _ _ hmem)
        rw [hbest] at h4
        simp at h4
    · rename_i hhead
      exfalso
      rw [List.head?_eq_none_iff] at hhead
      rw [hhead] at hlen1
      simp at hlen1
  · split
    · rename_i hopt
      exfalso
      have hall : ∀ o ∈ (groupTracksByBaseName mt).map
          (fun g => getBestTrackVariant g.2 pr), o.isSome := by
        intro o ho
        rcases List.mem_map.mp ho with ⟨g, hg, hgo⟩
        rw [← hgo]
        exact getBestTrackVariant_isSome _ pr (groupTracks_groups_ne_nil _ _ hg)
      rcases optAll_isSome _ hall with ⟨l2, heq, _⟩
      rw [heq] at hopt
      simp at hopt
    · rename_i allBest hopt
      split
      · simp
      · rename_i hmax
        exfalso
        have hall : ∀ o ∈ (groupTracksByBaseName mt).map
            (fun g => getBestTrackVariant g.2 pr), o.isSome := by
          intro o ho
          rcases List.mem_map.mp ho with ⟨g, hg, hgo⟩
          rw [← hgo]
          exact getBestTrackVariant_isSome _ pr (groupTracks_groups_ne_nil _ _ hg)
        rcases optAll_isSome _ hall with ⟨l2, heq, hlen2⟩
        rw [heq] at hopt
        simp only [Option.some.injEq] at hopt
        have hl2 : l2 ≠ [] := by
          intro he
          rw [he] at hlen2
          have h0 : (List.map (fun g => getBestTrackVariant g.2 pr)
              (groupTracksByBaseName mt)).length = 0 := by simpa using hlen2.symm
          exact groupTracks_ne_nil mt hmt (List.map_eq_nil_iff.mp (List.length_eq_zero.mp h0))
        have hne2 : allBest ≠ [] := by
          rw [← hopt]
          exact hl2
        have h5 := pyMaxBy_isSome (trackMatchScore q) allBest hne2
        rw [hmax] at h5
        simp at h5

theorem findTrack_total (cm : CM) (st : CacheState) (q : Str) (pr : Bool) :
    findTrack cm st q pr ≠ PyRes.err := by
  simp only [findTrack]
  split
  · simp
  · split
    · -- no textual overlap: fuzzy stage
      split
      · simp
      · split
        · simp
        · rename_i m ms matchedBase hfind
          split
          · simp
          · rename_i hbest
            exfalso
            have h1 : matchedBase ∈ pySetList (st.tracks.map (·.name)) :=
              List.mem_of_find?_eq_some hfind
            have h2 : matchedBase ∈ st.tracks.map (·.name) := mem_pySetList _ _ h1
            rcases List.mem_map.mp h2 with ⟨t, ht, htn⟩
            have h3 : t ∈ st.tracks.filter (fun t2 => t2.name == matchedBase) :=
              List.mem_filter.mpr ⟨ht, beq_iff_eq.mpr htn⟩
            have h4 := getBestTrackVariant_isSome _ pr (List.ne_nil_of_mem h3)
            rw [hbest] at h4
            simp at h4
    · -- textual overlap: grouped stage
      rename_i hmt
      exact bestGroupedResult_ne_err _ _ _ (fun he => hmt (by rw [he]; rfl))

theorem cm_nil (cm : CM) (hcm : CMOk cm) (q : Str) (n c : Nat) : cm q [] n c = [] := by
  rcases hc : cm q [] n c with _ | ⟨x, xs⟩
  · rfl
  · have hx : x ∈ cm q [] n c := by
      rw [hc]
      exact List.mem_cons_self _ _
    have := hcm q [] n c x hx
    simp at this

theorem getTrackSuggestions_total (cm : CM) (hcm : CMOk cm) (st : CacheState)
    (q : Str) (lim : Nat) : getTrackSuggestions cm st q lim ≠ PyRes.err := by
  simp only [getTrackSuggestions]
  split
  · rename_i hopt
    exfalso
    have hall : ∀ o ∈ (cm (pyLowerS q) (st.tracksByName.map (·.1)) lim 40).map
        (fun m => dictLookup st.tracksByName m), o.isSome := by
      intro o ho
      rcases List.mem_map.mp ho with ⟨m, hm, hmo⟩
      rw [← hmo]
      exact dictLookup_isSome_of_mem_keys _ _ (hcm _ _ _ _ m hm)
    rcases optAll_isSome _ hall with ⟨l2, heq, _⟩
    rw [heq] at hopt
    simp at hopt
  · simp

/-- C10: for every close-match function that (like difflib's
get_close_matches) only returns candidates from the supplied list, every
cache state, every query and every limit, find_track and
get_track_suggestions never raise: each branch that selects a best
variant is entered with a non-empty candidate group, and on the empty
catalog find_track returns not-found and get_track_suggestions returns
the empty list. -/
theorem c10_track_side_total (cm : CM) (hcm : CMOk cm) (st : CacheState) (q : Str)
    (pr : Bool) (lim : Nat) :
    findTrack cm st q pr ≠ PyRes.err ∧
    getTrackSuggestions cm st q lim ≠ PyRes.err ∧
    (∀ cs cbn, findTrack cm ⟨cs, cbn, [], []⟩ q pr = PyRes.val none) ∧
    (∀ cs cbn, getTrackSuggestions cm ⟨cs, cbn, [], []⟩ q lim = PyRes.val []) := by
  refine ⟨findTrack_total cm st q pr, getTrackSuggestions_total cm hcm st q lim, ?_, ?_⟩
  · intro cs cbn
    simp only [findTrack]
    rw [show dictLookup ([] : List (Str × Track)) (pyLowerS q) = none from rfl]
    rw [show List.filter _ ([] : List Track) = [] from List.filter_nil _]
    rw [show pySetList (List.map (·.name) ([] : List Track)) = [] from rfl]
    rw [show List.map pyLowerS ([] : List Str) = [] from rfl]
    rw [cm_nil cm hcm (pyLowerS q) 3 40]
    simp
  · intro cs cbn
    simp only [getTrackSuggestions]
    rw [show List.map (·.1) ([] : List (Str × Track)) = [] from rfl]
    rw [cm_nil cm hcm (pyLowerS q) lim 40]
    simp [optAll]

theorem c10_track_side_total_witness :
    CMOk cmNone ∧
    (findTrack cmNone (setTracks (CatalogData.objects
        [⟨0, S ("Road America"), S ("")⟩, ⟨1, S ("Road America"), S ("National")⟩])
        emptyCache) (S ("monza")) true ≠ PyRes.err ∧
      getTrackSuggestions cmNone (setTracks (CatalogData.objects
        [⟨0, S ("Road America"), S ("")⟩, ⟨1, S ("Road America"), S ("National")⟩])
        emptyCache) (S ("monza")) 5 ≠ PyRes.err ∧
      (∀ cs cbn, findTrack cmNone ⟨cs, cbn, [], []⟩ (S ("monza")) true = PyRes.val none) ∧
      (∀ cs cbn, getTrackSuggestions cmNone ⟨cs, cbn, [], []⟩ (S ("monza")) 5 =
        PyRes.val [])) :=
  ⟨cmNone_ok, c10_track_side_total cmNone cmNone_ok _ (S ("monza")) true 5⟩
